import Mathlib

/-!
Formal model of the resonance-sweep control loop of
`examples/02-HFSS/HFSS_eigenmode.py`.

The script drives an external eigenmode solver.  Each iteration of its
`while next_fmin < fmax` loop calls `find_resonance()`, which creates and
runs one solver setup and returns a dict `data` mapping `0, 1, ...` to
pairs `[eigen_q_value, eigen_mode_value]` (quality factor, frequency in
Hz).  The loop then sets `next_fmin = output[len(output) - 1][1] / 1e9`
(GHz), increments `setup_nr`, and appends to the dict `resonance` every
mode whose quality factor exceeds `limit`, keyed consecutively from
`len(resonance)`.

We embed Python numbers as exact rationals (`ℚ`).  The external solver is
modelled as an oracle `ℕ → List (ℚ × ℚ)` giving, for each iteration
index, the list of `(quality factor, frequency in Hz)` pairs that
`find_resonance` would assemble for that iteration (iteration `k` is the
one run with `setup_nr = k + 1`).  The dicts `data` and `resonance`,
whose keys are exactly `0 .. len - 1` in insertion order, are embedded as
lists.  A Python `KeyError` / `IndexError` is embedded as `none`.
-/

/-- State threaded through the `while next_fmin < fmax` loop of the
script: the mutated globals `next_fmin` (GHz), `resonance` (dict keyed
`0..` embedded as a list of `(Q, frequency in Hz)` pairs) and
`setup_nr`. -/
structure SweepState where
  next_fmin : ℚ
  resonance : List (ℚ × ℚ)
  setup_nr  : ℕ
  deriving Repr, DecidableEq

/-- One execution of the loop body (lines 136-143 of the script) given the
`data` dict returned by `find_resonance` for this iteration:
`next_fmin = output[len(output) - 1][1] / 1e9`, `setup_nr += 1`, and every
mode with `output[q][0] > limit` is appended, in key order, to
`resonance`.  On an empty `output`, the lookup `output[len(output) - 1]`
is a `KeyError`, embedded as `none`. -/
def loopBody (limit : ℚ) (output : List (ℚ × ℚ)) (st : SweepState) : Option SweepState :=
  match output.getLast? with
  | none => none
  | some last =>
      some ⟨last.2 / 1e9,
            st.resonance ++ output.filter (fun m => decide (limit < m.1)),
            st.setup_nr + 1⟩

/-- The state after `n` checks of the `while next_fmin < fmax` condition:
the loop starts from `next_fmin = fmin`, `resonance = {}`, `setup_nr = 1`
(lines 79-86), runs `loopBody` on the oracle's response while
`next_fmin < fmax`, and leaves the state unchanged once the condition
fails (loop exited).  `none` records an uncaught exception. -/
def sweepStates (oracle : ℕ → List (ℚ × ℚ)) (fmin fmax limit : ℚ) : ℕ → Option SweepState
  | 0 => some ⟨fmin, [], 1⟩
  | n + 1 =>
      match sweepStates oracle fmin fmax limit n with
      | none => none
      | some st =>
          if st.next_fmin < fmax then loopBody limit (oracle n) st else some st

/-- The loop terminates normally: some state is reached (no exception)
whose `next_fmin` satisfies `next_fmin ≥ fmax`, after which the `while`
condition fails. -/
def Terminates (oracle : ℕ → List (ℚ × ℚ)) (fmin fmax limit : ℚ) : Prop :=
  ∃ n st, sweepStates oracle fmin fmax limit n = some st ∧ fmax ≤ st.next_fmin

/-- Frequency (Hz) of the last mode of a solver response (the value the
script reads as `output[len(output) - 1][1]`); defaults to `0` on an
empty response, which the loop itself never uses. -/
def lastFreq (output : List (ℚ × ℚ)) : ℚ :=
  (output.getLastD (0, 0)).2

/-- Modes accepted by the quality filter during the first `k` iterations,
in encounter order: iteration by iteration, and within an iteration in
mode order, keeping exactly the modes with `output[q][0] > limit`. -/
def acceptedUpTo (oracle : ℕ → List (ℚ × ℚ)) (limit : ℚ) : ℕ → List (ℚ × ℚ)
  | 0 => []
  | k + 1 => acceptedUpTo oracle limit k ++ (oracle k).filter (fun m => decide (limit < m.1))

/-- The oracle of the spec's concrete scenario: every call returns six
modes at `[1.1, 1.3, 1.5, 1.7, 1.9, 2.1]` GHz with quality factors
`[5, 12, 8, 15, 20, 3]`. -/
def c2oracle : ℕ → List (ℚ × ℚ) := fun _ =>
  [(5, 1.1e9), (12, 1.3e9), (8, 1.5e9), (15, 1.7e9), (20, 1.9e9), (3, 2.1e9)]

/-- C2: with fmin = 1 GHz, fmax = 2 GHz, threshold 10 and a first solver
response of six modes at [1.1, 1.3, 1.5, 1.7, 1.9, 2.1] GHz with quality
factors [5, 12, 8, 15, 20, 3], the single iteration accepts exactly the
modes at 1.3, 1.7 and 1.9 GHz in that order, sets `next_fmin` to 2.1 GHz,
the loop terminates after that iteration (the state no longer changes),
and the final resonance set lists frequencies [1.3, 1.7, 1.9] GHz. -/
theorem c2_scenario :
    sweepStates c2oracle 1 2 10 1 =
      some ⟨2.1, [(12, 1.3e9), (15, 1.7e9), (20, 1.9e9)], 2⟩ ∧
    sweepStates c2oracle 1 2 10 2 = sweepStates c2oracle 1 2 10 1 ∧
    Terminates c2oracle 1 2 10 ∧
    ([(12, 1.3e9), (15, 1.7e9), (20, 1.9e9)] : List (ℚ × ℚ)).map
        (fun m => m.2 / 1e9) = [1.3, 1.7, 1.9] := by
  have h1 : sweepStates c2oracle 1 2 10 1 =
      some ⟨2.1, [(12, 1.3e9), (15, 1.7e9), (20, 1.9e9)], 2⟩ := by
    simp only [sweepStates, loopBody, c2oracle, List.getLast?, List.filter]
    norm_num
  refine ⟨h1, ?_, ⟨1, _, h1, by norm_num⟩, by norm_num⟩
  rw [sweepStates, h1]
  norm_num

lemma sweepStates_zero (oracle : ℕ → List (ℚ × ℚ)) (fmin fmax limit : ℚ) :
    sweepStates oracle fmin fmax limit 0 = some ⟨fmin, [], 1⟩ := rfl

lemma sweepStates_succ_of_some {oracle : ℕ → List (ℚ × ℚ)} {fmin fmax limit : ℚ}
    {n : ℕ} {st : SweepState} (h : sweepStates oracle fmin fmax limit n = some st) :
    sweepStates oracle fmin fmax limit (n + 1) =
      if st.next_fmin < fmax then loopBody limit (oracle n) st else some st := by
  rw [sweepStates, h]

lemma sweepStates_succ_of_none {oracle : ℕ → List (ℚ × ℚ)} {fmin fmax limit : ℚ}
    {n : ℕ} (h : sweepStates oracle fmin fmax limit n = none) :
    sweepStates oracle fmin fmax limit (n + 1) = none := by
  rw [sweepStates, h]

lemma loopBody_of_ne_nil (limit : ℚ) (output : List (ℚ × ℚ)) (st : SweepState)
    (h : output ≠ []) :
    loopBody limit output st =
      some ⟨lastFreq output / 1e9,
            st.resonance ++ output.filter (fun m => decide (limit < m.1)),
            st.setup_nr + 1⟩ := by
  unfold loopBody lastFreq
  cases ho : output.getLast? with
  | none => exact absurd (List.getLast?_eq_none_iff.mp ho) h
  | some l => rw [List.getLastD_eq_getLast?, ho]; rfl

lemma sweepStates_isSome (oracle : ℕ → List (ℚ × ℚ)) (fmin fmax limit : ℚ)
    (hne : ∀ k, oracle k ≠ []) :
    ∀ n, ∃ st, sweepStates oracle fmin fmax limit n = some st := by
  intro n
  induction n with
  | zero => exact ⟨_, rfl⟩
  | succ n ih =>
      obtain ⟨st, hst⟩ := ih
      rw [sweepStates_succ_of_some hst]
      by_cases h : st.next_fmin < fmax
      · rw [if_pos h, loopBody_of_ne_nil _ _ _ (hne n)]
        exact ⟨_, rfl⟩
      · rw [if_neg h]
        exact ⟨st, rfl⟩

lemma sweepStates_invariant (oracle : ℕ → List (ℚ × ℚ)) (fmin fmax limit : ℚ) :
    ∀ n st, sweepStates oracle fmin fmax limit n = some st →
      1 ≤ st.setup_nr ∧ st.setup_nr ≤ n + 1 ∧
      (st.setup_nr < n + 1 → fmax ≤ st.next_fmin) ∧
      st.resonance = acceptedUpTo oracle limit (st.setup_nr - 1) := by
  intro n
  induction n with
  | zero =>
      intro st h
      rw [sweepStates_zero] at h
      cases h
      refine ⟨le_refl 1, le_refl 1, fun hc => absurd hc (lt_irrefl 1), ?_⟩
      rfl
  | succ n ih =>
      intro st' h
      cases hsn : sweepStates oracle fmin fmax limit n with
      | none => rw [sweepStates_succ_of_none hsn] at h; exact absurd h (by simp)
      | some st =>
          obtain ⟨h1, h2, h3, h4⟩ := ih st hsn
          rw [sweepStates_succ_of_some hsn] at h
          by_cases hlt : st.next_fmin < fmax
          · rw [if_pos hlt] at h
            have hnr : st.setup_nr = n + 1 := by
              by_contra hne
              have hlt' : st.setup_nr < n + 1 := lt_of_le_of_ne h2 hne
              exact absurd (h3 hlt') (not_le.mpr hlt)
            unfold loopBody at h
            cases ho : (oracle n).getLast? with
            | none => rw [ho] at h; exact absurd h (by simp)
            | some last =>
                rw [ho] at h
                cases h
                refine ⟨?_, ?_, ?_, ?_⟩
                · show 1 ≤ st.setup_nr + 1
                  omega
                · show st.setup_nr + 1 ≤ n + 1 + 1
                  omega
                · intro hc
                  exact absurd (show st.setup_nr + 1 < n + 1 + 1 from hc) (by omega)
                show st.resonance ++ _ = acceptedUpTo oracle limit (st.setup_nr + 1 - 1)
                rw [h4, hnr]
                rfl
          · rw [if_neg hlt] at h
            cases h
            exact ⟨h1, le_trans h2 (by omega),
                   fun _ => not_lt.mp hlt, h4⟩

lemma c2_state1 :
    sweepStates c2oracle 1 2 10 1 =
      some ⟨2.1, [(12, 1.3e9), (15, 1.7e9), (20, 1.9e9)], 2⟩ := by
  simp only [sweepStates, loopBody, c2oracle, List.getLast?, List.filter]
  norm_num

/-- C3: across any sequence of solver responses, a mode is appended to the
resonance set exactly when its quality factor is strictly greater than
`limit`; the accepted modes appear in encounter order (per-iteration mode
order, iterations chronological), and no mode with quality factor at or
below `limit` ever appears: the resonance set of any reachable state is
exactly `acceptedUpTo`, the in-order concatenation of the quality filters
of the executed iterations. -/
theorem resonance_filter_characterization (oracle : ℕ → List (ℚ × ℚ))
    (fmin fmax limit : ℚ) (n : ℕ) (st : SweepState)
    (h : sweepStates oracle fmin fmax limit n = some st) :
    st.resonance = acceptedUpTo oracle limit (st.setup_nr - 1) :=
  (sweepStates_invariant oracle fmin fmax limit n st h).2.2.2

/-- Witness for C3 at the concrete scenario oracle after one iteration. -/
theorem resonance_filter_characterization_witness :
    (⟨2.1, [(12, 1.3e9), (15, 1.7e9), (20, 1.9e9)], 2⟩ : SweepState).resonance =
      acceptedUpTo c2oracle 10 (2 - 1) :=
  resonance_filter_characterization c2oracle 1 2 10 1 _ c2_state1

/-- C4: whenever an iteration runs (the state is live and still scanning)
and the solver's response for it has a last mode, the following state's
`next_fmin` — the minimum frequency submitted with the next iteration's
setup — equals that last mode's frequency in Hz divided by `1e9` (GHz),
with no condition on whether that mode passed the quality filter. -/
theorem next_fmin_eq_last_mode (oracle : ℕ → List (ℚ × ℚ)) (fmin fmax limit : ℚ)
    (n : ℕ) (st : SweepState) (last : ℚ × ℚ)
    (h : sweepStates oracle fmin fmax limit n = some st)
    (hlt : st.next_fmin < fmax)
    (hlast : (oracle n).getLast? = some last) :
    ∃ st', sweepStates oracle fmin fmax limit (n + 1) = some st' ∧
      st'.next_fmin = last.2 / 1e9 := by
  rw [sweepStates_succ_of_some h, if_pos hlt]
  unfold loopBody
  rw [hlast]
  exact ⟨_, rfl, rfl⟩

/-- Witness for C4: a single-mode response at 1.3 GHz becomes the next
iteration's minimum frequency. -/
theorem next_fmin_eq_last_mode_witness :
    ∃ st', sweepStates (fun _ => [((12 : ℚ), (1.3e9 : ℚ))]) 1 2 10 1 = some st' ∧
      st'.next_fmin = (1.3e9 : ℚ) / 1e9 :=
  next_fmin_eq_last_mode _ 1 2 10 0 _ (12, 1.3e9) rfl (by norm_num) rfl

/-- C10: the frequency-advance step is only defined for non-empty solver
responses.  First part: if an iteration runs and its response is empty,
the lookup `output[len(output) - 1]` on the empty dict fails, so the next
state is the embedded exception `none` — neither normal termination nor
any raised sweep-specific error.  Second part: if every response has at
least one mode, every state of the loop is defined. -/
theorem empty_response_fails :
    (∀ (oracle : ℕ → List (ℚ × ℚ)) (fmin fmax limit : ℚ) (n : ℕ) (st : SweepState),
       sweepStates oracle fmin fmax limit n = some st →
       st.next_fmin < fmax → oracle n = [] →
       sweepStates oracle fmin fmax limit (n + 1) = none) ∧
    (∀ (oracle : ℕ → List (ℚ × ℚ)) (fmin fmax limit : ℚ) (n : ℕ),
       (∀ k, oracle k ≠ []) →
       ∃ st, sweepStates oracle fmin fmax limit n = some st) := by
  constructor
  · intro oracle fmin fmax limit n st h hlt hnil
    rw [sweepStates_succ_of_some h, if_pos hlt, hnil]
    rfl
  · intro oracle fmin fmax limit n hne
    exact sweepStates_isSome oracle fmin fmax limit hne n

/-- Witness for C10: an empty response kills the sweep after one
iteration, while an everywhere-nonempty oracle keeps every state
defined. -/
theorem empty_response_fails_witness :
    sweepStates (fun _ => ([] : List (ℚ × ℚ))) 1 2 10 1 = none ∧
    ∃ st, sweepStates (fun _ => [((0 : ℚ), (0 : ℚ))]) 1 2 10 2 = some st :=
  ⟨empty_response_fails.1 _ 1 2 10 0 ⟨1, [], 1⟩ rfl (by norm_num) rfl,
   empty_response_fails.2 _ 1 2 10 2 (fun k => by simp)⟩

lemma sweepStates_scanning_forever (oracle : ℕ → List (ℚ × ℚ)) (fmin fmax limit : ℚ)
    (h0 : fmin < fmax) (hne : ∀ k, oracle k ≠ [])
    (hlow : ∀ k, lastFreq (oracle k) / 1e9 < fmax) :
    ∀ n, ∃ st, sweepStates oracle fmin fmax limit n = some st ∧ st.next_fmin < fmax := by
  intro n
  induction n with
  | zero => exact ⟨_, rfl, h0⟩
  | succ n ih =>
      obtain ⟨st, hst, hfm⟩ := ih
      rw [sweepStates_succ_of_some hst, if_pos hfm, loopBody_of_ne_nil _ _ _ (hne n)]
      exact ⟨_, rfl, hlow n⟩

lemma not_terminates_of_low (oracle : ℕ → List (ℚ × ℚ)) (fmin fmax limit : ℚ)
    (h0 : fmin < fmax) (hne : ∀ k, oracle k ≠ [])
    (hlow : ∀ k, lastFreq (oracle k) / 1e9 < fmax) :
    ¬ Terminates oracle fmin fmax limit := by
  rintro ⟨n, st, hst, hge⟩
  obtain ⟨st', hst', hfm⟩ :=
    sweepStates_scanning_forever oracle fmin fmax limit h0 hne hlow n
  rw [hst] at hst'
  cases hst'
  exact absurd hge (not_le.mpr hfm)

/-- A Zeno sequence of solver responses: iteration `k` returns the single
mode `(Q = 0, frequency = (2 - 1/(k+2)) GHz)`, so the last frequencies
are strictly increasing yet stay below 2 GHz forever. -/
def zenoOracle : ℕ → List (ℚ × ℚ) := fun k =>
  [(0, (2 - 1 / ((k : ℚ) + 2)) * 1e9)]

lemma zenoOracle_lastFreq (k : ℕ) :
    lastFreq (zenoOracle k) = (2 - 1 / ((k : ℚ) + 2)) * 1e9 := by
  simp [zenoOracle, lastFreq]

/-- Counterexample to C1 as stated: the Zeno oracle returns, across
iterations, responses whose last (highest) mode frequency strictly
increases from one iteration to the next, yet with fmin = 1 GHz and
fmax = 2 GHz the while-loop never terminates — the running `next_fmin`
equals `2 - 1/(k+2)` GHz and never reaches `fmax`. -/
theorem c1_counterexample :
    (∀ k, zenoOracle k ≠ []) ∧
    (∀ k, lastFreq (zenoOracle k) < lastFreq (zenoOracle (k + 1))) ∧
    ¬ Terminates zenoOracle 1 2 10 := by
  refine ⟨fun k => by simp [zenoOracle], ?_, ?_⟩
  · intro k
    rw [zenoOracle_lastFreq, zenoOracle_lastFreq]
    have hk2 : (0 : ℚ) < (k : ℚ) + 2 := by positivity
    have hk3 : (0 : ℚ) < (k : ℚ) + 3 := by positivity
    have hcast : ((k + 1 : ℕ) : ℚ) + 2 = (k : ℚ) + 3 := by push_cast; ring
    rw [hcast]
    have h : 1 / ((k : ℚ) + 3) < 1 / ((k : ℚ) + 2) :=
      one_div_lt_one_div_of_lt hk2 (by linarith)
    have : (2 : ℚ) - 1 / ((k : ℚ) + 2) < 2 - 1 / ((k : ℚ) + 3) := by linarith
    exact mul_lt_mul_of_pos_right this (by norm_num)
  · refine not_terminates_of_low zenoOracle 1 2 10 (by norm_num)
      (fun k => by simp [zenoOracle]) ?_
    intro k
    rw [zenoOracle_lastFreq,
        mul_div_cancel_right₀ _ (by norm_num : (1e9 : ℚ) ≠ 0)]
    have hk2 : (0 : ℚ) < 1 / ((k : ℚ) + 2) := by positivity
    linarith

/-- C1 (amended): if every iteration's response is non-empty and the last
(highest) mode frequency advances from one iteration to the next by at
least a fixed positive amount, then the while-loop terminates and at
termination the running `next_fmin` is at least `fmax`. -/
theorem sweep_terminates_of_min_advance (oracle : ℕ → List (ℚ × ℚ))
    (fmin fmax limit d : ℚ) (hd : 0 < d) (hne : ∀ k, oracle k ≠ [])
    (hadv : ∀ k, lastFreq (oracle k) + d ≤ lastFreq (oracle (k + 1))) :
    Terminates oracle fmin fmax limit := by
  by_contra hT
  rw [Terminates] at hT
  push_neg at hT
  have growth : ∀ k : ℕ, lastFreq (oracle 0) + k * d ≤ lastFreq (oracle k) := by
    intro k
    induction k with
    | zero => simp
    | succ k ih =>
        have h := hadv k
        push_cast
        push_cast at ih
        linarith
  have key : ∀ n, lastFreq (oracle n) < fmax * 1e9 := by
    intro n
    obtain ⟨st, hst⟩ := sweepStates_isSome oracle fmin fmax limit hne n
    have hfm : st.next_fmin < fmax := hT n st hst
    have hstep : sweepStates oracle fmin fmax limit (n + 1) =
        some ⟨lastFreq (oracle n) / 1e9,
              st.resonance ++ (oracle n).filter (fun m => decide (limit < m.1)),
              st.setup_nr + 1⟩ := by
      rw [sweepStates_succ_of_some hst, if_pos hfm, loopBody_of_ne_nil _ _ _ (hne n)]
    have hlt : lastFreq (oracle n) / 1e9 < fmax := hT (n + 1) _ hstep
    rw [div_lt_iff₀ (by norm_num : (0 : ℚ) < 1e9)] at hlt
    exact hlt
  obtain ⟨N, hN⟩ := exists_nat_ge ((fmax * 1e9 - lastFreq (oracle 0)) / d)
  rw [div_le_iff₀ hd] at hN
  have h2 := growth N
  have h3 := key N
  linarith

/-- An oracle advancing by a full 1 GHz each iteration: iteration `k`
returns the single mode `(Q = 0, frequency = (k + 2) GHz)`. -/
def advOracle : ℕ → List (ℚ × ℚ) := fun k => [(0, ((k : ℚ) + 2) * 1e9)]

lemma advOracle_lastFreq (k : ℕ) :
    lastFreq (advOracle k) = ((k : ℚ) + 2) * 1e9 := by
  simp [advOracle, lastFreq]

/-- Witness for the amended C1 at a concrete strictly advancing oracle. -/
theorem sweep_terminates_of_min_advance_witness : Terminates advOracle 1 2 10 := by
  refine sweep_terminates_of_min_advance advOracle 1 2 10 1e9 (by norm_num)
    (fun k => by simp [advOracle]) ?_
  intro k
  rw [advOracle_lastFreq, advOracle_lastFreq]
  push_cast
  linarith

/-- A non-advancing oracle: every iteration returns the single mode
`(Q = 0, frequency = 1 GHz)`, so starting from fmin = 1 GHz the maximum
returned frequency always equals the iteration's own minimum frequency. -/
def constOracle : ℕ → List (ℚ × ℚ) := fun _ => [(0, 1e9)]

lemma constOracle_lastFreq (k : ℕ) : lastFreq (constOracle k) = 1e9 := by
  simp [constOracle, lastFreq]

/-- Counterexample to C6 as stated: with fmin = 1 GHz, fmax = 2 GHz and
every response's maximum mode frequency equal to the iteration's own
minimum frequency (1 GHz), the script raises nothing — after three
iterations the state is still a live `some` state with `next_fmin = 1`
unchanged — and the loop never terminates. -/
theorem c6_counterexample :
    lastFreq (constOracle 0) / 1e9 ≤ 1 ∧
    sweepStates constOracle 1 2 10 3 = some ⟨1, [], 4⟩ ∧
    ¬ Terminates constOracle 1 2 10 := by
  refine ⟨by rw [constOracle_lastFreq]; norm_num, ?_, ?_⟩
  · simp only [sweepStates, loopBody, constOracle, List.getLast?, List.filter]
    norm_num
  · refine not_terminates_of_low constOracle 1 2 10 (by norm_num)
      (fun k => by simp [constOracle]) ?_
    intro k
    rw [constOracle_lastFreq]
    norm_num

/-- C6 (amended): the reference loop contains no no-progress guard and
raises no error on non-advancing responses.  If fmin < fmax, every
response is non-empty, and every response's last mode frequency stays
below fmax (in particular whenever no iteration ever advances the
minimum frequency past its own), then every state of the loop is a live
`some` state still satisfying `next_fmin < fmax` — the loop runs forever
instead of raising anything. -/
theorem no_progress_loops_forever (oracle : ℕ → List (ℚ × ℚ))
    (fmin fmax limit : ℚ) (h0 : fmin < fmax) (hne : ∀ k, oracle k ≠ [])
    (hlow : ∀ k, lastFreq (oracle k) / 1e9 < fmax) :
    (∀ n, ∃ st, sweepStates oracle fmin fmax limit n = some st ∧
       st.next_fmin < fmax) ∧
    ¬ Terminates oracle fmin fmax limit :=
  ⟨sweepStates_scanning_forever oracle fmin fmax limit h0 hne hlow,
   not_terminates_of_low oracle fmin fmax limit h0 hne hlow⟩

/-- Witness for the amended C6 at the concrete non-advancing oracle. -/
theorem no_progress_loops_forever_witness :
    (∀ n, ∃ st, sweepStates constOracle 1 2 10 n = some st ∧
       st.next_fmin < 2) ∧
    ¬ Terminates constOracle 1 2 10 :=
  no_progress_loops_forever constOracle 1 2 10 (by norm_num)
    (fun k => by simp [constOracle])
    (fun k => by rw [constOracle_lastFreq]; norm_num)

/-- The eigenmode setup properties assigned in `find_resonance` (lines
98-106 of the script): `MinimumFrequency` (the value serialized there as
`str(next_fmin) + " GHz"`), `NumModes`, `ConvergeOnRealFreq`,
`MaximumPasses`, `MinimumPasses`, `MaxDeltaFreq`. -/
structure SetupProps where
  minimum_frequency_ghz : ℚ
  num_modes : ℕ
  converge_on_real_freq : Bool
  maximum_passes : ℕ
  minimum_passes : ℕ
  max_delta_freq : ℚ
  deriving Repr, DecidableEq

/-- Construction of a setup in `find_resonance`: the given `next_fmin`
and `num_modes` are written into the properties unconditionally, with
the fixed values `ConvergeOnRealFreq = True`, `MaximumPasses = 10`,
`MinimumPasses = 3`, `MaxDeltaFreq = 5`.  The script contains no
validation of any of these inputs. -/
def mkEigenmodeSetup (next_fmin : ℚ) (num_modes : ℕ) : SetupProps :=
  ⟨next_fmin, num_modes, true, 10, 3, 5⟩

/-- Counterexample to C5 as stated: with fmin = fmax = 1 the sweep does
not fail at all — the loop body never runs and the result is the silent
empty resonance set — and mode counts 0 and 21 are written into a setup
unchallenged (no `ConfigurationError` exists anywhere in the script). -/
theorem c5_counterexample :
    sweepStates (fun _ => [((0 : ℚ), (0 : ℚ))]) 1 1 10 2 = some ⟨1, [], 1⟩ ∧
    (mkEigenmodeSetup 1 0).num_modes = 0 ∧
    (mkEigenmodeSetup 1 21).num_modes = 21 := by
  refine ⟨?_, rfl, rfl⟩
  simp only [sweepStates]
  norm_num

/-- C5 (amended): the reference script performs no input validation.
With fmin = fmax the `while next_fmin < fmax` condition fails
immediately, so for every oracle the state stays forever at the initial
one — an empty resonance set returned silently, no error of any kind —
and `find_resonance` accepts every mode count (0, 1, 20, 21, ...)
verbatim into the setup properties. -/
theorem no_configuration_validation :
    (∀ (oracle : ℕ → List (ℚ × ℚ)) (f limit : ℚ) (n : ℕ),
       sweepStates oracle f f limit n = some ⟨f, [], 1⟩) ∧
    (∀ (f : ℚ) (m : ℕ), mkEigenmodeSetup f m = ⟨f, m, true, 10, 3, 5⟩) := by
  constructor
  · intro oracle f limit n
    induction n with
    | zero => rfl
    | succ n ih => rw [sweepStates_succ_of_some ih, if_neg (lt_irrefl f)]
  · intro f m
    rfl

/-- C7: the sweep is deterministic in the solver responses.  Two runs
from the initial state (`next_fmin = fmin`, empty resonance set) fed
pointwise identical oracles pass through identical states, and in
particular build identical resonance sets (same modes, same order). -/
theorem sweep_deterministic (o1 o2 : ℕ → List (ℚ × ℚ)) (fmin fmax limit : ℚ)
    (h : ∀ k, o1 k = o2 k) (n : ℕ) :
    sweepStates o1 fmin fmax limit n = sweepStates o2 fmin fmax limit n ∧
    Option.map SweepState.resonance (sweepStates o1 fmin fmax limit n) =
      Option.map SweepState.resonance (sweepStates o2 fmin fmax limit n) := by
  have ho : o1 = o2 := funext h
  rw [ho]
  exact ⟨rfl, rfl⟩

/-- Witness for C7: two syntactically different but pointwise equal
oracles drive the sweep to the same state after one iteration. -/
theorem sweep_deterministic_witness :
    sweepStates (fun _ => [((12 : ℚ), (1.3e9 : ℚ))]) 1 2 10 1 =
      sweepStates (fun k => [((12 : ℚ), (1.3e9 : ℚ))].take (k + 1)) 1 2 10 1 ∧
    Option.map SweepState.resonance
        (sweepStates (fun _ => [((12 : ℚ), (1.3e9 : ℚ))]) 1 2 10 1) =
      Option.map SweepState.resonance
        (sweepStates (fun k => [((12 : ℚ), (1.3e9 : ℚ))].take (k + 1)) 1 2 10 1) :=
  sweep_deterministic _ _ 1 2 10 (fun k => by simp) 1

/-- Per-iteration data assembly of `find_resonance` (lines 110-122 of the
script): the Python loop `for i in eigen_mode` keeps a counter `cont` in
lockstep with the iteration, reads `eigen_q[cont]` and `eigen_mode[cont]`
(the latter is the current loop element, always in range), queries the
solution value of each quantity name (modelled by `sol`), and stores
`data[cont] = [q value, mode value]`.  The positional lookup
`eigen_q[cont]` raises `IndexError` — embedded as `none` — when
`eigen_q` is shorter than `eigen_mode`. -/
def findResonanceGo (eigen_q : List String) (sol : String → ℚ) :
    List String → ℕ → Option (List (ℚ × ℚ))
  | [], _ => some []
  | mn :: rest, cont =>
      match eigen_q[cont]? with
      | some qn =>
          match findResonanceGo eigen_q sol rest (cont + 1) with
          | some tail => some ((sol qn, sol mn) :: tail)
          | none => none
      | none => none

/-- The data dict built by one call of `find_resonance`, as a list of
`(quality factor, frequency)` pairs keyed `0 ..`; `none` embeds the
uncaught `IndexError` raised when the quality-factor quantity list is
shorter than the mode quantity list. -/
def find_resonance (eigen_q eigen_mode : List String) (sol : String → ℚ) :
    Option (List (ℚ × ℚ)) :=
  findResonanceGo eigen_q sol eigen_mode 0

lemma findResonanceGo_of_le (eigen_q : List String) (sol : String → ℚ) :
    ∀ (rest : List String) (cont : ℕ), cont + rest.length ≤ eigen_q.length →
      findResonanceGo eigen_q sol rest cont =
        some (List.zipWith (fun qn mn => (sol qn, sol mn))
                (eigen_q.drop cont) rest) := by
  intro rest
  induction rest with
  | nil => intro cont h; simp [findResonanceGo]
  | cons mn rest ih =>
      intro cont h
      have hq : cont < eigen_q.length := by
        simp only [List.length_cons] at h
        omega
      have hrec : cont + 1 + rest.length ≤ eigen_q.length := by
        simp only [List.length_cons] at h
        omega
      simp only [findResonanceGo, List.getElem?_eq_getElem hq, ih (cont + 1) hrec]
      rw [List.drop_eq_getElem_cons hq]
      rfl

lemma findResonanceGo_of_gt (eigen_q eigen_mode : List String) (sol : String → ℚ)
    (hgt : eigen_q.length < eigen_mode.length) :
    ∀ (rest : List String) (cont : ℕ), eigen_mode.drop cont = rest →
      cont ≤ eigen_q.length →
      findResonanceGo eigen_q sol rest cont = none := by
  intro rest
  induction rest with
  | nil =>
      intro cont h hle
      have hlen := congrArg List.length h
      simp only [List.length_drop, List.length_nil] at hlen
      omega
  | cons mn rest ih =>
      intro cont h hle
      rcases eq_or_lt_of_le hle with heq | hlt
      · simp only [findResonanceGo, List.getElem?_eq_none (le_of_eq heq.symm)]
      · have hdrop : eigen_mode.drop (cont + 1) = rest := by
          have h1 : eigen_mode.drop (cont + 1) = (eigen_mode.drop cont).drop 1 := by
            rw [List.drop_drop]
          rw [h1, h]
          rfl
        simp only [findResonanceGo, List.getElem?_eq_getElem hlt,
                   ih (cont + 1) hdrop (by omega)]

/-- C8: in each iteration the controller pairs the `i`-th mode-frequency
quantity with the `i`-th quality-factor quantity purely by position — on
success the data list is exactly the positional `zipWith` of the two
quantity lists under the solution valuation — and the pairing is total
exactly when the quality-factor list is at least as long as the mode
list; when it is shorter, the call fails with the out-of-range index
(embedded `none`) instead of producing any mode sample. -/
theorem positional_pairing (eigen_q eigen_mode : List String) (sol : String → ℚ) :
    find_resonance eigen_q eigen_mode sol =
      if eigen_mode.length ≤ eigen_q.length
      then some (List.zipWith (fun qn mn => (sol qn, sol mn)) eigen_q eigen_mode)
      else none := by
  by_cases hle : eigen_mode.length ≤ eigen_q.length
  · rw [if_pos hle]
    have := findResonanceGo_of_le eigen_q sol eigen_mode 0 (by omega)
    simpa [find_resonance] using this
  · rw [if_neg hle]
    push_neg at hle
    exact findResonanceGo_of_gt eigen_q eigen_mode sol hle eigen_mode 0 rfl (by omega)

/-- Smallest `k` with `d ≤ n * 10 ^ k`, computed with fuel (for `n ≥ 1`
it is found within `d` steps). -/
def tenPowSearch : ℕ → ℕ → ℕ → ℕ
  | 0, _, _ => 0
  | f + 1, n, d => if d ≤ n then 0 else tenPowSearch f (10 * n) d + 1

/-- Decimal exponent of a positive rational: the `e` with
`10 ^ e ≤ x < 10 ^ (e + 1)`. -/
def decExp (x : ℚ) : ℤ :=
  let n := x.num.natAbs
  let d := x.den
  if d ≤ n then (Nat.log 10 (n / d) : ℤ) else -(tenPowSearch d n d : ℤ)

/-- Five significant decimal digits of a positive rational: the decimal
exponent together with the five-digit mantissa `round (x * 10 ^ (4 - e))`,
re-normalized when rounding carries into a sixth digit. -/
def sig5 (x : ℚ) : ℤ × ℕ :=
  let e := decExp x
  let m := round (x * (10 : ℚ) ^ ((4 : ℤ) - e))
  if 100000 ≤ m then (e + 1, 10000) else (e, m.toNat)

/-- Drop the trailing `0` characters of a digit run. -/
def stripZeros (s : List Char) : List Char :=
  (s.reverse.dropWhile (fun c => c = '0')).reverse

/-- Decimal digit characters of a natural number. -/
def digitsOf (m : ℕ) : List Char := (toString m).toList

/-- Fixed-point rendering of five significant digits `ds` at decimal
exponent `e`: trailing fractional zeros are stripped but at least one
fractional digit is kept, as Python's empty presentation type does. -/
def fixedChars (e : ℤ) (ds : List Char) : List Char :=
  if 0 ≤ e then
    let ip := ds.take (e.toNat + 1)
    let fp := stripZeros (ds.drop (e.toNat + 1))
    ip ++ ('.' :: (if fp.isEmpty then ['0'] else fp))
  else
    '0' :: '.' :: (List.replicate (e.natAbs - 1) '0' ++ stripZeros ds)

/-- Exponent suffix `e±dd` with at least two exponent digits. -/
def expChars (e : ℤ) : List Char :=
  let a := e.natAbs
  let das := (toString a).toList
  'e' :: (if e < 0 then '-' else '+') :: (if a < 10 then '0' :: das else das)

/-- Scientific rendering of five significant digits `ds` at decimal
exponent `e`: a bare leading digit when the stripped fraction is empty. -/
def sciChars (e : ℤ) (ds : List Char) : List Char :=
  let tail := stripZeros (ds.drop 1)
  (ds.take 1 ++ (if tail.isEmpty then [] else '.' :: tail)) ++ expChars e

/-- Rendering of a positive rational with precision 5 and the empty
presentation type: fixed-point for decimal exponents in `[-4, 3]`,
scientific otherwise (the threshold observed for Python's `:.5`). -/
def formatPosDot5 (x : ℚ) : List Char :=
  let p := sig5 x
  let ds := digitsOf p.2
  if -4 ≤ p.1 ∧ p.1 < 4 then fixedChars p.1 ds else sciChars p.1 ds

/-- Python's `:.5` format specifier (line 145 of the script) modelled
over exact rationals: five significant decimal digits, fixed or
scientific notation by decimal exponent, trailing zeros stripped, ties
resolved by `round`. -/
def formatDot5 (x : ℚ) : String :=
  if x = 0 then "0.0"
  else if x < 0 then "-" ++ String.mk (formatPosDot5 (-x))
  else String.mk (formatPosDot5 x)

/-- The display list built on line 145 of the script,
`[f"..." for i in resonance]`: one string per entry of the resonance
dict, in key order, each the mode's frequency divided by `1e9` rendered
with `:.5` followed by the unit label `" GHz"`. -/
def resonance_frequencies (resonance : List (ℚ × ℚ)) : List String :=
  resonance.map (fun m => formatDot5 (m.2 / 1e9) ++ " GHz")

/-- C9: after any run of the loop, the display sequence derived from the
final state contains exactly one string per accepted mode — it maps the
in-order list of accepted modes through the `:.5` GHz rendering — so its
entries are the accepted modes' frequencies converted to GHz with the
`" GHz"` label, in resonance-set order, and its length is the number of
accepted modes. -/
theorem display_sequence (oracle : ℕ → List (ℚ × ℚ)) (fmin fmax limit : ℚ)
    (n : ℕ) (st : SweepState)
    (h : sweepStates oracle fmin fmax limit n = some st) :
    resonance_frequencies st.resonance =
      (acceptedUpTo oracle limit (st.setup_nr - 1)).map
        (fun m => formatDot5 (m.2 / 1e9) ++ " GHz") ∧
    (resonance_frequencies st.resonance).length = st.resonance.length := by
  have hr := (sweepStates_invariant oracle fmin fmax limit n st h).2.2.2
  constructor
  · rw [resonance_frequencies, hr]
  · simp [resonance_frequencies]

/-- Witness for C9 at the concrete scenario state after one iteration. -/
theorem display_sequence_witness :
    resonance_frequencies
        (⟨2.1, [(12, 1.3e9), (15, 1.7e9), (20, 1.9e9)], 2⟩ : SweepState).resonance =
      (acceptedUpTo c2oracle 10
          ((⟨2.1, [(12, 1.3e9), (15, 1.7e9), (20, 1.9e9)], 2⟩ : SweepState).setup_nr - 1)).map
        (fun m => formatDot5 (m.2 / 1e9) ++ " GHz") ∧
    (resonance_frequencies
        (⟨2.1, [(12, 1.3e9), (15, 1.7e9), (20, 1.9e9)], 2⟩ : SweepState).resonance).length =
      (⟨2.1, [(12, 1.3e9), (15, 1.7e9), (20, 1.9e9)], 2⟩ : SweepState).resonance.length :=
  display_sequence c2oracle 1 2 10 1 _ c2_state1
